import Mathlib

/-!
Verification of the syster-lsp language-server slice.

The repository slice under verification contains the LSP-facing layer
(crates/syster-lsp); the semantic engine it drives (the syster crate:
AnalysisHost, SymbolIndex, Resolver, ReferenceIndex) is not part of the
slice, so those components are modelled from the specification where a
claim depends on them.  Every definition carries the name of the source
function it embeds.
-/

namespace Syster

/-- File paths, as the Rust code's PathBuf keys, modelled as strings. -/
abbrev Path := String

/-- Numeric file identifiers handed out by the analysis host. -/
abbrev FileId := Nat

/-- An LSP position (line, character), mirroring lsp_types::Position. -/
structure Pos where
  line : Nat
  character : Nat
deriving DecidableEq, Repr

/-- An LSP range, mirroring lsp_types::Range. -/
structure LspRange where
  start : Pos
  stop : Pos
deriving DecidableEq, Repr

/-- Association-list lookup, modelling HashMap::get on a map keyed by the
first component. -/
def alLookup {α : Type} (m : List (Path × α)) (k : Path) : Option α :=
  (m.find? (fun p => p.1 == k)).map Prod.snd

/-- Association-list insert, modelling HashMap::insert: if the key is
present its entry is replaced in place, otherwise the pair is appended.
Keeping the position of an existing key models the stable file-insertion
order the spec requires of the symbol table. -/
def alInsert {α : Type} (k : Path) (v : α) (m : List (Path × α)) : List (Path × α) :=
  if m.any (fun p => p.1 == k) then
    m.map (fun p => if p.1 == k then (k, v) else p)
  else
    m ++ [(k, v)]

/-- A raw reference (TypeRef) extracted from a declaration: the raw target
text, the qualified name of the symbol containing it, and the owning file. -/
structure Reference where
  target : String
  source_qualified_name : String
  source_file : Path
deriving DecidableEq, Repr

/-- A declared symbol as held in the symbol table: simple name, qualified
name, and the file that owns it. -/
structure Symbol where
  name : String
  qualified_name : String
  source_file : Path
deriving DecidableEq, Repr

/-- Per-file contribution record kept by the analysis host: the symbols and
references extracted from the file's current content. -/
structure FileRecord where
  symbols : List Symbol
  references : List Reference
deriving DecidableEq, Repr

/-- The analysis host's per-file state: each live file's record, in file
insertion order. -/
abbrev Host := List (Path × FileRecord)

/-- Modelled from the spec: set_file(file_id, symbols, scopes) replaces all
prior symbols and references owned by the file atomically (remove-then-insert,
never append-then-mark).  The engine's AnalysisHost::set_file is outside the
repository slice. -/
def setFile (p : Path) (r : FileRecord) (h : Host) : Host :=
  alInsert p r h

/-- Modelled from the spec: all_symbols() yields every live symbol in file
insertion order then declaration order. -/
def allSymbols (h : Host) : List Symbol :=
  h.flatMap (fun e => e.2.symbols)

/-- Modelled from the spec: resolve(qualified_name) is the exact global
lookup against the merged qualified-name map.  The merged map is built by
inserting every live symbol in file-insertion order with later insertions
overwriting earlier ones (the later set_file wins for a colliding name), so
the value found for a key is the last live symbol bearing that qualified
name. -/
def resolve (h : Host) (q : String) : Option Symbol :=
  (allSymbols h).reverse.find? (fun s => s.qualified_name == q)

/-- Modelled from the spec: get_references_in_file(file) lists the
references currently attributed to the file by the Reference Index. -/
def getReferencesInFile (h : Host) (p : Path) : List Reference :=
  ((alLookup h p).map (fun r => r.references)).getD []

/-- Modelled from the spec: get_sources(target) is the reverse "used by"
lookup: the containing symbol of every live reference whose raw target text
is the given name. -/
def getSources (h : Host) (target : String) : List String :=
  ((h.flatMap (fun e => e.2.references)).filter (fun r => r.target == target)).map
    (fun r => r.source_qualified_name)

/-- A single syntactic declaration as far as symbol extraction is concerned:
the declared simple name and the raw reference targets occurring inside the
declaration. -/
structure Element where
  name : String
  refs : List String
deriving DecidableEq, Repr

/-- A parsed source file, modelling syster::SyntaxFile: the KerML/SysML
variant tag, the optional top-level namespace, and the top-level elements.
An empty file has no elements and hence contributes no symbols. -/
structure SrcFile where
  isKerML : Bool
  namespaceName : Option String
  elements : List Element
deriving DecidableEq, Repr

/-- A parse error, modelling syster::core::ParseError: a position and a
message. -/
structure ParseError where
  line : Nat
  column : Nat
  message : String
deriving DecidableEq, Repr

/-- The result of parse_with_result: the collected errors and, when the
text parsed at all, the resulting file. -/
structure ParseResult where
  errors : List ParseError
  content : Option SrcFile
deriving DecidableEq, Repr

/-- The LspServer state touched by document handling (core.rs): the
analysis host's per-file records, the per-file parse errors, and the
per-document text buffers. -/
structure ServerState where
  hostFiles : Host
  parseErrors : List (Path × List ParseError)
  documentTexts : List (Path × String)
deriving DecidableEq, Repr

/-- True when the path carries the KerML extension, modelling the
extension check in create_empty_syntax_file (document.rs). -/
def hasKermlExtension (p : Path) : Bool :=
  p.endsWith ".kerml"

/-- Embeds create_empty_syntax_file (document.rs): an empty KerML or SysML
file depending on the path's extension; both variants carry no namespace
and no elements. -/
def createEmptySourceFile (p : Path) : SrcFile :=
  ⟨hasKermlExtension p, none, []⟩

/-- Qualified name of a declaration under an optional enclosing namespace. -/
def qualify (ns : Option String) (n : String) : String :=
  match ns with
  | some q => q ++ "::" ++ n
  | none => n

/-- Modelled from the spec: the Reference Extractor, a pure function of
(file, tree) producing the symbols and raw references of that file alone;
the real extractor lives in the syster crate outside this slice. -/
def extract (p : Path) (f : SrcFile) : FileRecord :=
  ⟨f.elements.map (fun e => ⟨e.name, qualify f.namespaceName e.name, p⟩),
   f.elements.flatMap
     (fun e => e.refs.map (fun t => ⟨t, qualify f.namespaceName e.name, p⟩))⟩

/-- Embeds parse_into_workspace (document.rs): parse the text, store the
parse errors for the path, and install the parsed file in the analysis
host via set_file; when the parse produced no content, install an empty
file instead so the file id still exists.  The parser itself is an
external collaborator and is passed in as a function. -/
def parseIntoWorkspace (parse : String → Path → ParseResult)
    (st : ServerState) (p : Path) (text : String) : ServerState :=
  match (parse text p).content with
  | some f =>
      ⟨setFile p (extract p f) st.hostFiles,
       alInsert p (parse text p).errors st.parseErrors,
       st.documentTexts⟩
  | none =>
      ⟨setFile p (extract p (createEmptySourceFile p)) st.hostFiles,
       alInsert p (parse text p).errors st.parseErrors,
       st.documentTexts⟩

/-- The file record a (re-)index of the given text installs for the path:
the extraction of the parsed content, or of the empty file when the parse
failed completely. -/
def extractedRecord (parse : String → Path → ParseResult)
    (p : Path) (text : String) : FileRecord :=
  match (parse text p).content with
  | some f => extract p f
  | none => extract p (createEmptySourceFile p)

/-- Embeds char_offset_to_byte (helpers.rs): the byte offset of a
character offset within a line, summing the UTF-8 sizes of the first
charOffset characters (chars().take(n) saturates past the end). -/
def charOffsetToByte (line : List Char) (charOffset : Nat) : Nat :=
  ((line.take charOffset).map Char.utf8Size).sum

/-- UTF-8 byte length of a character sequence; models Rust str::len. -/
def utf8Len (s : List Char) : Nat :=
  (s.map Char.utf8Size).sum

/-- Splitting on LF, keeping empty segments, as Rust str::split of a slice
does: the result always has one more segment than there are newlines. -/
def splitLF : List Char → List (List Char)
  | [] => [[]]
  | c :: cs =>
      match splitLF cs with
      | [] => [[c]]
      | l :: ls => if c = '\n' then [] :: l :: ls else (c :: l) :: ls

/-- Embeds position_to_byte_offset (helpers.rs): split the text on LF,
reject positions past the last line, map the position one past the last
line to the total byte length, and otherwise add the byte lengths of the
preceding lines (plus one per newline) to the in-line byte offset. -/
def positionToByteOffset (text : String) (pos : Pos) : Except String Nat :=
  let lines := splitLF text.data
  if pos.line > lines.length then
    Except.error ("Line " ++ toString pos.line ++ " out of bounds (total lines: "
      ++ toString lines.length ++ ")")
  else if pos.line = lines.length then
    Except.ok (utf8Len text.data)
  else
    let byteOffset := ((lines.take pos.line).map (fun l => utf8Len l + 1)).sum
    Except.ok (byteOffset + charOffsetToByte (lines.getD pos.line []) pos.character)

/-- Prefix of a character list up to a byte offset; models the Rust byte
slice text[..n].  Every offset the code computes is a sum of whole-character
UTF-8 sizes, hence character-aligned, so stopping at the character that
would overrun the offset is exact. -/
def byteTake : List Char → Nat → List Char
  | [], _ => []
  | c :: cs, n => if c.utf8Size ≤ n then c :: byteTake cs (n - c.utf8Size) else []

/-- Suffix of a character list from a byte offset; models the Rust byte
slice text[n..], under the same character-alignment as byteTake. -/
def byteDrop : List Char → Nat → List Char
  | [], _ => []
  | c :: cs, n => if c.utf8Size ≤ n then byteDrop cs (n - c.utf8Size) else c :: cs

/-- Embeds apply_text_edit (helpers.rs): resolve both range endpoints to
byte offsets, reject an inverted range or an end past the text, and splice
the replacement between the prefix before the start and the suffix after
the end. -/
def applyTextEdit (text : String) (range : LspRange) (newText : String) :
    Except String String := do
  let startByte ← positionToByteOffset text range.start
  let endByte ← positionToByteOffset text range.stop
  if startByte > endByte then
    Except.error ("Invalid range: start (" ++ toString startByte ++ ") > end ("
      ++ toString endByte ++ ")")
  else if endByte > utf8Len text.data then
    Except.error ("Range end (" ++ toString endByte ++ ") exceeds text length ("
      ++ toString (utf8Len text.data) ++ ")")
  else
    Except.ok (String.mk (byteTake text.data startByte ++ newText.data
      ++ byteDrop text.data endByte))

/-- An LSP TextDocumentContentChangeEvent: an optional range and the new
text (range_length is ignored by the code and elided). -/
structure ContentChange where
  range : Option LspRange
  text : String
deriving DecidableEq, Repr

/-- Embeds apply_text_change_only (document.rs): read the current buffer
(empty when the document was never opened), take the change text whole when
there is no range or the current text is empty, splice it at the range
otherwise, and store the result in the document-text map only.  Parse state
and the analysis host are untouched; an edit error leaves the state
unmodified. -/
def computeNewText (st : ServerState) (p : Path) (change : ContentChange) :
    Except String String :=
  match change.range with
  | some range =>
      if (alLookup st.documentTexts p).getD "" = "" then Except.ok change.text
      else applyTextEdit ((alLookup st.documentTexts p).getD "") range change.text
  | none => Except.ok change.text

/-- Continuation of apply_text_change_only: on success the computed text is
stored under the path in the document-text map; on an edit error the state
is left unmodified. -/
def applyTextChangeOnly (st : ServerState) (p : Path) (change : ContentChange) :
    Except String ServerState :=
  match computeNewText st p change with
  | Except.ok t =>
      Except.ok ⟨st.hostFiles, st.parseErrors, alInsert p t st.documentTexts⟩
  | Except.error e => Except.error e

/-- LSP diagnostic severity. -/
inductive DiagSeverity
  | error
  | warning
  | info
  | hint
deriving DecidableEq, Repr

/-- HIR diagnostic severity (syster::hir::Severity). -/
inductive HirSeverity
  | error
  | warning
  | info
  | hint
deriving DecidableEq, Repr

/-- Embeds hir_severity_to_lsp (diagnostics.rs). -/
def hirSeverityToLsp : HirSeverity → DiagSeverity
  | HirSeverity.error => DiagSeverity.error
  | HirSeverity.warning => DiagSeverity.warning
  | HirSeverity.info => DiagSeverity.info
  | HirSeverity.hint => DiagSeverity.hint

/-- An LSP diagnostic as built by get_diagnostics: range, severity, code,
message and source. -/
structure Diagnostic where
  range : LspRange
  severity : Option DiagSeverity
  code : Option String
  message : String
  source : Option String
deriving DecidableEq, Repr

/-- A semantic diagnostic produced by syster::hir::check_file. -/
structure SemDiag where
  start_line : Nat
  start_col : Nat
  end_line : Nat
  end_col : Nat
  severity : HirSeverity
  code : Option String
  message : String
deriving DecidableEq, Repr

/-- The LSP diagnostic built from one parse error (diagnostics.rs lines
17-31): a one-character range at the error position, severity ERROR,
source "syster-parse". -/
def parseErrorDiagnostic (e : ParseError) : Diagnostic :=
  ⟨⟨⟨e.line, e.column⟩, ⟨e.line, e.column + 1⟩⟩, some DiagSeverity.error, none,
   e.message, some "syster-parse"⟩

/-- The LSP diagnostic built from one semantic diagnostic (diagnostics.rs
lines 41-58), source "syster-semantic". -/
def semanticDiagnostic (d : SemDiag) : Diagnostic :=
  ⟨⟨⟨d.start_line, d.start_col⟩, ⟨d.end_line, d.end_col⟩⟩,
   some (hirSeverityToLsp d.severity), d.code, d.message, some "syster-semantic"⟩

/-- Modelled from the spec: Analysis::get_file_id, the position of the path
among the host's live files; the engine's numbering is outside the slice. -/
def getFileId (h : Host) (p : Path) : Option FileId :=
  (h.map Prod.fst).findIdx? (fun q => q == p)

/-- Embeds get_diagnostics (diagnostics.rs): the stored parse errors are
converted first; semantic diagnostics from check_file are appended only
when no parse-error diagnostic was produced.  check_file lives in the
syster crate and is passed in as a function. -/
def get_diagnostics (st : ServerState) (checkFile : FileId → List SemDiag)
    (p : Path) : List Diagnostic :=
  let parseDiags : List Diagnostic :=
    match alLookup st.parseErrors p with
    | some errors => errors.map parseErrorDiagnostic
    | none => []
  if parseDiags.isEmpty then
    match getFileId st.hostFiles p with
    | some fid => parseDiags ++ (checkFile fid).map semanticDiagnostic
    | none => parseDiags
  else
    parseDiags

/-- The cancellation bookkeeping of LspServer (core.rs): tokens are
numbered in creation order; a token is a CancellationToken identity,
cancelled is the set of tokens on which cancel() was called, and docTokens
is the document_cancel_tokens map. -/
structure CancelState where
  nextId : Nat
  cancelled : List Nat
  docTokens : List (Path × Nat)
deriving DecidableEq, Repr

/-- True when cancel() has been called on the token. -/
def isCancelled (s : CancelState) (t : Nat) : Bool :=
  s.cancelled.contains t

/-- Well-formedness: every token ever handed out is older than nextId. -/
def tokensBounded (s : CancelState) : Prop :=
  (∀ t ∈ s.cancelled, t < s.nextId) ∧ (∀ e ∈ s.docTokens, e.2 < s.nextId)

/-- Embeds cancel_document_operations (core.rs): cancel the token stored
for the document, if any, then create a fresh token, store it for the
document and return it. -/
def cancelDocumentOperations (s : CancelState) (p : Path) : Nat × CancelState :=
  let cancelled' :=
    match alLookup s.docTokens p with
    | some old => old :: s.cancelled
    | none => s.cancelled
  (s.nextId, ⟨s.nextId + 1, cancelled', alInsert p s.nextId s.docTokens⟩)

/-- An LSP text edit. -/
structure TextEdit where
  range : LspRange
  newText : String
deriving DecidableEq, Repr

/-- Rust str::lines(): split on LF, drop a final empty segment, and trim a
trailing CR from each line. -/
def rustLines (text : String) : List String :=
  let parts := text.split (fun c => c == '\n')
  let parts := if parts.getLast? = some "" then parts.dropLast else parts
  parts.map (fun l => if l.endsWith "\r" then l.dropRight 1 else l)

/-- Embeds full_document_range (formatting.rs): from line 0 column 0 to the
last line's byte length. -/
def fullDocumentRange (text : String) : LspRange :=
  ⟨⟨0, 0⟩, ⟨(rustLines text).length - 1, ((rustLines text).getLast?.getD "").utf8ByteSize⟩⟩

/-- Embeds format_text (formatting.rs).  c1 and c2 are the values
cancel.is_cancelled() is observed to take at the check before formatting
and the check before building the result; fmtResult is the output of
formatter::format_async (the formatter is an excluded collaborator which
itself yields none when it observes cancellation).  Formatting options are
consumed only by the external formatter and are elided. -/
def formatText (fmtResult : Option String) (c1 c2 : Bool) (text : String) :
    Option (List TextEdit) :=
  if c1 then none
  else
    match fmtResult with
    | none => none
    | some formatted =>
        if c2 then none
        else if formatted = text then none
        else some [⟨fullDocumentRange text, formatted⟩]

/-- Embeds format_range_text (formatting.rs): resolve the range to byte
offsets (none on failure or an invalid range), format the selected slice,
and honour the same two cancellation observations as formatText. -/
def formatRangeText (fmtResult : Option String) (c1 c2 : Bool) (text : String)
    (range : LspRange) : Option (List TextEdit) :=
  if c1 then none
  else
    match positionToByteOffset text range.start with
    | Except.error _ => none
    | Except.ok startByte =>
      match positionToByteOffset text range.stop with
      | Except.error _ => none
      | Except.ok endByte =>
        if startByte > endByte ∨ endByte > utf8Len text.data then none
        else
          let selected := String.mk (byteDrop (byteTake text.data endByte) startByte)
          match fmtResult with
          | none => none
          | some formatted =>
              if c2 then none
              else if formatted = selected then none
              else some [⟨range, formatted⟩]

/-- A target location as returned by the HIR layer's goto_definition and
find_references: a file id and a span in line/column form. -/
structure Target where
  file : FileId
  start_line : Nat
  start_col : Nat
  end_line : Nat
  end_col : Nat
deriving DecidableEq, Repr

/-- The result of Analysis::goto_definition. -/
structure GotoResult where
  targets : List Target
deriving DecidableEq, Repr

/-- The result of Analysis::find_references; reference items carry the
same fields as targets. -/
structure FindRefsResult where
  references : List Target
deriving DecidableEq, Repr

/-- The result of Analysis::hover: rendered contents, the hovered symbol's
qualified name when known, and the hover span. -/
structure HoverResult where
  contents : String
  qualified_name : Option String
  start_line : Nat
  start_col : Nat
  end_line : Nat
  end_col : Nat
deriving DecidableEq, Repr

/-- A raw type reference of a HIR symbol: target text and position. -/
structure HirTypeRef where
  target : String
  start_line : Nat
  start_col : Nat
deriving DecidableEq, Repr

/-- TypeRefKind (Simple or Chain) as stored in HIR symbols. -/
inductive TypeRefKind
  | simple : HirTypeRef → TypeRefKind
  | chain : List HirTypeRef → TypeRefKind
deriving DecidableEq, Repr

/-- Embeds TypeRefKind::as_refs: flatten to the underlying references. -/
def TypeRefKind.as_refs : TypeRefKind → List HirTypeRef
  | TypeRefKind.simple r => [r]
  | TypeRefKind.chain rs => rs

/-- A symbol of the HIR symbol index as consumed by hover. -/
structure HirSymbol where
  name : String
  qualified_name : String
  file : FileId
  type_refs : List TypeRefKind
deriving DecidableEq, Repr

/-- Modelled from the spec: the Analysis snapshot the HIR-based queries
run against.  Its query methods live in the syster crate outside this
slice, so they appear as the snapshot's function fields; the LSP-layer
code under verification is embedded on top of them. -/
structure Analysis where
  fileId : Path → Option FileId
  filePath : FileId → Option Path
  gotoDef : FileId → Nat → Nat → GotoResult
  findRefs : FileId → Nat → Nat → Bool → FindRefsResult
  hoverAt : FileId → Nat → Nat → Option HoverResult
  symbols : List HirSymbol

/-- An LSP Location: the defining file (standing in for its URI) and a
range. -/
structure Location where
  uri : Path
  range : LspRange
deriving DecidableEq, Repr

/-- The Location built from a target, as definition.rs and references.rs
build it (Url::from_file_path is modelled as the identity on paths). -/
def mkLocation (p : Path) (t : Target) : Location :=
  ⟨p, ⟨⟨t.start_line, t.start_col⟩, ⟨t.end_line, t.end_col⟩⟩⟩

/-- Embeds get_definition (definition.rs): look up the file id, run
goto_definition, take the first target in the result's order, convert its
file id back to a path, and build the Location; none at any missing step. -/
def get_definition (a : Analysis) (p : Path) (pos : Pos) : Option Location := do
  let fid ← a.fileId p
  let t ← (a.gotoDef fid pos.line pos.character).targets.head?
  let defPath ← a.filePath t.file
  some (mkLocation defPath t)

/-- Embeds get_references (references.rs): look up the file id, run
find_references, and convert every reference whose file id still resolves
to a path; the location list may be empty. -/
def get_references (a : Analysis) (p : Path) (pos : Pos)
    (includeDeclaration : Bool) : Option (List Location) := do
  let fid ← a.fileId p
  some ((a.findRefs fid pos.line pos.character includeDeclaration).references.filterMap
    (fun r => (a.filePath r.file).map (fun rp => mkLocation rp r)))

/-- Simple name of a qualified name: the last :: separated segment
(hover.rs line 63). -/
def simpleNameOf (q : String) : String :=
  ((q.splitOn "::").getLast?).getD q

/-- True when the type reference points at the hovered symbol by qualified
or simple name (hover.rs lines 75-77). -/
def refMatches (q simple : String) (tr : HirTypeRef) : Bool :=
  tr.target == q || tr.target == simple

/-- The reference occurrences collected by
add_references_section_from_analysis before sorting: for every matching
symbol, its matching type references as (file, line, col). -/
def collectRefs (a : Analysis) (q : String) : List (FileId × Nat × Nat) :=
  (a.symbols.filter (fun sym =>
      (sym.type_refs.flatMap TypeRefKind.as_refs).any
        (refMatches q (simpleNameOf q)))).flatMap
    (fun sym =>
      ((sym.type_refs.flatMap TypeRefKind.as_refs).filter
          (refMatches q (simpleNameOf q))).map
        (fun tr => (sym.file, tr.start_line, tr.start_col)))

/-- The (file, line, col) comparison used by the sort_by_key call in
hover.rs line 95: lexicographic order on the key triple. -/
def refKeyLe (x y : Nat × Nat × Nat) : Bool :=
  decide (x.1 < y.1) ||
    (x.1 == y.1 && (decide (x.2.1 < y.2.1) ||
      (x.2.1 == y.2.1 && decide (x.2.2 ≤ y.2.2))))

/-- The collected references after the stable sort by (file, line, col). -/
def sortedRefs (a : Analysis) (q : String) : List (FileId × Nat × Nat) :=
  (collectRefs a q).mergeSort refKeyLe

/-- File name shown in a reference line: the last path segment
(percent-decoding is a display-only transformation and is elided). -/
def fileNameOf (p : Path) : String :=
  ((p.splitOn "/").getLast?).getD p

/-- One rendered line of the Referenced-by section (hover.rs lines
102-117); an entry whose file id no longer resolves contributes nothing. -/
def refLine (a : Analysis) (e : FileId × Nat × Nat) : String :=
  match a.filePath e.1 with
  | some p =>
      "- [" ++ fileNameOf p ++ ":" ++ toString (e.2.1 + 1) ++ ":"
        ++ toString (e.2.2 + 1) ++ "](" ++ p ++ "#L" ++ toString (e.2.1 + 1) ++ ")\n"
  | none => ""

/-- Embeds add_references_section_from_analysis (hover.rs): collect the
matching references, return the content unchanged when there are none,
otherwise append the Referenced-by header and one line per sorted
reference. -/
def addReferencesSection (a : Analysis) (content : String) (q : String) : String :=
  if (sortedRefs a q).isEmpty then content
  else
    (sortedRefs a q).foldl (fun acc e => acc ++ refLine a e)
      (content ++ "\n**Referenced by:** (" ++ toString (sortedRefs a q).length
        ++ " usage" ++ (if (sortedRefs a q).length = 1 then "" else "s") ++ ")\n")

/-- Hover payload: scalar string contents plus the hover range. -/
structure HoverInfo where
  contents : String
  range : LspRange
deriving DecidableEq, Repr

/-- Embeds get_hover (hover.rs): look up the file id, run the analysis
hover, append the Referenced-by section when the qualified name is known,
and return the contents with the hover range. -/
def get_hover (a : Analysis) (p : Path) (pos : Pos) : Option HoverInfo := do
  let fid ← a.fileId p
  let r ← a.hoverAt fid pos.line pos.character
  let contents :=
    match r.qualified_name with
    | some q => addReferencesSection a r.contents q
    | none => r.contents
  some ⟨contents, ⟨⟨r.start_line, r.start_col⟩, ⟨r.end_line, r.end_col⟩⟩⟩

/-- Chain context of a reference: the parts of an a.b.c chain and the
index of the part this occurrence is. -/
structure ChainContext where
  chain_parts : List String
  chain_index : Nat
deriving DecidableEq, Repr

/-- Context-carrying reference info returned by
get_full_reference_at_position. -/
structure RefInfo where
  scope_id : Option Nat
  chain_context : Option ChainContext
deriving DecidableEq, Repr

/-- A source span in line/column form with lexicographic containment,
modelling syster::core::Span and its contains check. -/
structure Span where
  startPos : Pos
  endPos : Pos
deriving DecidableEq, Repr

/-- Lexicographic order on positions. -/
def posLe (a b : Pos) : Bool :=
  decide (a.line < b.line) || (a.line == b.line && decide (a.character ≤ b.character))

/-- Containment of a position in a span. -/
def Span.containsPos (s : Span) (p : Pos) : Bool :=
  posLe s.startPos p && posLe p s.endPos

/-- A workspace symbol-table symbol as consumed by
find_symbol_at_position. -/
structure WSym where
  qualified_name : String
  scope_id : Nat
  span : Option Span
  source_file : Option Path
deriving DecidableEq, Repr

/-- Modelled from the spec: the workspace components find_symbol_at_position
(position.rs) consults — the ReferenceIndex position lookup, the Resolver
operations and the symbol table iterator; all live in the syster crate
outside this slice and appear as function fields. -/
structure Engine where
  refAtPos : Path → Pos → Option (String × RefInfo)
  resolveInScope : String → Nat → Option WSym
  resolveMemberOn : String → WSym → Nat → Option WSym
  resolveGlobal : String → Option WSym
  symbols : List WSym

/-- Embeds make_word_range (position.rs): a one-character range at the
cursor. -/
def makeWordRange (pos : Pos) : LspRange :=
  ⟨pos, ⟨pos.line, pos.character + 1⟩⟩

/-- Span converted to an LSP range (span_to_lsp_range). -/
def spanToLspRange (s : Span) : LspRange :=
  ⟨s.startPos, s.endPos⟩

/-- The intermediate chain walk of find_symbol_at_position (position.rs
lines 44-52): fold resolve_member over the intermediate chain parts,
stopping at the first unresolved hop and keeping the symbol reached (the
loop's break).  The walk is structurally bounded by the chain's length. -/
def chainWalk (e : Engine) : List String → WSym → WSym
  | [], current => current
  | part :: rest, current =>
      match e.resolveMemberOn part current current.scope_id with
      | some next => chainWalk e rest next
      | none => current

/-- Embeds find_symbol_at_position (position.rs): try the reference index
at the position first (with feature-chain handling when the reference is a
chain part past the head), fall back to the raw target text when the
reference cannot be resolved, and otherwise scan the symbol table for a
declaration whose span contains the position.  Rust indexes
chain_parts[0..chain_index] directly; the model reads the same slice
totally. -/
def find_symbol_at_position (e : Engine) (p : Path) (pos : Pos) :
    Option (String × LspRange) :=
  match e.refAtPos p pos with
  | some (targetName, refInfo) =>
      let chainResult : Option (String × LspRange) :=
        match refInfo.chain_context with
        | some cc =>
            if cc.chain_index > 0 ∧ cc.chain_parts.length > 1 then
              match e.resolveInScope (cc.chain_parts.getD 0 "")
                  (refInfo.scope_id.getD 0) with
              | some baseSymbol =>
                  let current := chainWalk e
                    ((cc.chain_parts.drop 1).take (cc.chain_index - 1)) baseSymbol
                  match e.resolveMemberOn targetName current current.scope_id with
                  | some symbol =>
                      some (symbol.qualified_name,
                        (symbol.span.map spanToLspRange).getD (makeWordRange pos))
                  | none => none
              | none => none
            else none
        | none => none
      match chainResult with
      | some r => some r
      | none =>
          match
            (match refInfo.scope_id with
             | some sid => e.resolveInScope targetName sid
             | none => e.resolveGlobal targetName) with
          | some symbol =>
              some (symbol.qualified_name,
                (symbol.span.map spanToLspRange).getD (makeWordRange pos))
          | none => some (targetName, makeWordRange pos)
  | none =>
      match e.symbols.find? (fun sym =>
          sym.source_file == some p &&
            (sym.span.map (fun s => s.containsPos pos)).getD false) with
      | some sym =>
          match sym.span with
          | some s => some (sym.qualified_name, spanToLspRange s)
          | none => none
      | none => none

/-- A concrete engine whose position lookup finds a reference named Foo
but whose resolver operations all fail. -/
def c4Engine : Engine :=
  ⟨fun _ _ => some ("Foo", ⟨some 0, none⟩), fun _ _ => none, fun _ _ _ => none,
   fun _ => none, []⟩

/-- A resolver-table symbol for member resolution: qualified name, the
Usage flag with its typed-by target, and the raw specialization targets in
declaration order. -/
structure RSym where
  qualified_name : String
  is_usage : Bool
  usage_type : Option String
  supertypes : List String
deriving DecidableEq, Repr

/-- Modelled from the spec: exact qualified lookup in the resolver's
table. -/
def tableResolve (table : List RSym) (q : String) : Option RSym :=
  table.find? (fun s => s.qualified_name == q)

/-- The qualified name of a would-be member of a base symbol. -/
def memberQName (base : RSym) (member : String) : String :=
  base.qualified_name ++ "::" ++ member

/-- Modelled from the spec: resolve_member's depth-first, first-match-wins
search (spec 4.2): look for base::member; if the base is a Usage retry its
typed-by definition as the base; otherwise try each supertype in
declaration order; a visited set of qualified names makes inheritance
cycles a no-op.  The search is written as a worklist whose traversal order
is exactly the spec's depth-first order; the fuel argument is a structural
over-approximation of the bound the visited set already imposes (each
fresh visit consumes one table entry), so with the budget below it never
runs out. -/
def resolveMemberAux (table : List RSym) (member : String) :
    Nat → List RSym → List String → Option RSym
  | 0, _, _ => none
  | _ + 1, [], _ => none
  | fuel + 1, base :: stack, visited =>
      if visited.contains base.qualified_name then
        resolveMemberAux table member fuel stack visited
      else
        match tableResolve table (memberQName base member) with
        | some s => some s
        | none =>
            resolveMemberAux table member fuel
              ((if base.is_usage then
                  match base.usage_type with
                  | some t =>
                      match tableResolve table t with
                      | some td => [td]
                      | none => []
                  | none => []
                else [])
                ++ base.supertypes.filterMap (tableResolve table) ++ stack)
              (base.qualified_name :: visited)

/-- Fuel budget dominating any visited-set-guarded search over the table:
at most table.length + 1 fresh visits, each pushing at most its supertypes
plus one typed-by base. -/
def resolveMemberFuel (table : List RSym) : Nat :=
  (table.length + 1) * ((table.map (fun s => s.supertypes.length + 1)).sum + 2) + 1

/-- Modelled from the spec: resolve_member(member_name, base_symbol, _):
the visited-set-guarded search started at the base. -/
def resolve_member (table : List RSym) (member : String) (base : RSym) :
    Option RSym :=
  resolveMemberAux table member (resolveMemberFuel table) [base] []

/-- The contrived cyclic specialization table X :> Y; Y :> X. -/
def cyclicTable : List RSym :=
  [⟨"X", false, none, ["Y"]⟩, ⟨"Y", false, none, ["X"]⟩]

/-- A concrete analysis snapshot with two goto-definition targets. -/
def c7Analysis : Analysis :=
  ⟨fun _ => some 0, fun _ => some "a.sysml",
   fun _ _ _ => ⟨[⟨0, 1, 2, 1, 9⟩, ⟨0, 3, 4, 3, 9⟩]⟩,
   fun _ _ _ _ => ⟨[]⟩, fun _ _ _ => none, []⟩

/-- A concrete analysis snapshot on which every query comes back empty. -/
def emptyAnalysis : Analysis :=
  ⟨fun _ => some 0, fun _ => none, fun _ _ _ => ⟨[]⟩, fun _ _ _ _ => ⟨[]⟩,
   fun _ _ _ => none, []⟩

/-- A concrete engine with no references and no symbols. -/
def emptyEngine : Engine :=
  ⟨fun _ _ => none, fun _ _ => none, fun _ _ _ => none, fun _ => none, []⟩

end Syster

namespace Syster

/-- C1 helper: no two live symbols share a qualified name. -/
def qualifiedNamesNodup (h : Host) : Prop :=
  ((allSymbols h).map (fun s => s.qualified_name)).Nodup

instance (h : Host) : Decidable (qualifiedNamesNodup h) := by
  unfold qualifiedNamesNodup; infer_instance

end Syster

namespace Syster

/-- Helper: inserting a key a second time leaves the key present. -/
theorem alInsert_any {α : Type} (k : Path) (v : α) (m : List (Path × α)) :
    (alInsert k v m).any (fun q => q.1 == k) = true := by
  unfold alInsert
  by_cases h : m.any (fun q => q.1 == k) = true
  · rw [if_pos h]
    rw [List.any_eq_true] at h ⊢
    obtain ⟨x, hx, hxk⟩ := h
    exact ⟨(k, v), List.mem_map.mpr ⟨x, hx, by simp [hxk]⟩, by simp⟩
  · rw [if_neg h]
    simp

/-- Helper: alInsert with the same key and value twice equals once. -/
theorem alInsert_idem {α : Type} (k : Path) (v : α) (m : List (Path × α)) :
    alInsert k v (alInsert k v m) = alInsert k v m := by
  have hany := alInsert_any k v m
  conv_lhs => rw [alInsert]
  rw [if_pos hany]
  unfold alInsert
  by_cases h : m.any (fun q => q.1 == k) = true
  · rw [if_pos h, List.map_map]
    apply List.map_congr_left
    intro a _
    by_cases ha : a.1 = k <;> simp [ha]
  · rw [if_neg h]
    rw [List.any_eq_true] at h
    push_neg at h
    rw [List.map_append]
    have h1 : m.map (fun q => if q.1 == k then (k, v) else q) = m := by
      have := List.map_congr_left
        (f := fun q : Path × α => if q.1 == k then (k, v) else q) (g := id)
        (l := m) ?_
      · simpa using this
      · intro a ha
        simp only [id]
        rw [if_neg]
        intro hak
        exact h a ha hak
    rw [h1]
    simp

/-- Helper: after alInsert, looking the key up finds the inserted value. -/
theorem alLookup_alInsert {α : Type} (k : Path) (v : α) (m : List (Path × α)) :
    alLookup (alInsert k v m) k = some v := by
  unfold alLookup alInsert
  by_cases h : m.any (fun q => q.1 == k) = true
  · rw [if_pos h, List.find?_map]
    have hpred : ((fun q : Path × α => q.1 == k) ∘
        (fun q : Path × α => if q.1 == k then (k, v) else q))
        = (fun q : Path × α => q.1 == k) := by
      funext q
      by_cases hq : q.1 = k <;> simp [hq]
    rw [hpred]
    obtain ⟨x, hx, hxk⟩ := List.any_eq_true.mp h
    have hsome : (m.find? (fun q => q.1 == k)).isSome :=
      List.find?_isSome.mpr ⟨x, hx, hxk⟩
    obtain ⟨y, hy⟩ := Option.isSome_iff_exists.mp hsome
    rw [hy]
    have hyk : y.1 = k := by
      have := List.find?_some hy
      simpa using this
    simp [hyk]
  · rw [if_neg h, List.find?_append]
    have hnone : m.find? (fun q => q.1 == k) = none := by
      rw [List.find?_eq_none]
      rw [List.any_eq_true] at h
      push_neg at h
      intro x hx
      simpa using h x hx
    rw [hnone]
    simp

/-- Helper: re-indexing identical text twice equals indexing it once. -/
theorem parseIntoWorkspace_idem (parse : String → Path → ParseResult)
    (st : ServerState) (p : Path) (text : String) :
    parseIntoWorkspace parse (parseIntoWorkspace parse st p text) p text
      = parseIntoWorkspace parse st p text := by
  unfold parseIntoWorkspace
  cases hc : (parse text p).content with
  | some f => simp only [hc, setFile]; rw [alInsert_idem, alInsert_idem]
  | none => simp only [hc, setFile]; rw [alInsert_idem, alInsert_idem]

/-- C1: Qualified round-trip.  For every symbol S produced by indexing a set
of files, resolve(S.qualified_name) returns some S (under the spec's
invariant that qualified names are globally unique at any instant); and
resolve returns none exactly when no live symbol has that exact qualified
name. -/
theorem qualified_roundtrip (h : Host) (S : Symbol)
    (hnd : qualifiedNamesNodup h) (hmem : S ∈ allSymbols h) :
    resolve h S.qualified_name = some S ∧
      (∀ q : String, resolve h q = none ↔ ∀ T ∈ allSymbols h, T.qualified_name ≠ q) := by
  constructor
  · have hmem' : S ∈ (allSymbols h).reverse := by simpa using hmem
    have hsome : ((allSymbols h).reverse.find?
        (fun s => s.qualified_name == S.qualified_name)).isSome := by
      rw [List.find?_isSome]
      exact ⟨S, hmem', by simp⟩
    obtain ⟨T, hT⟩ := Option.isSome_iff_exists.mp hsome
    have hTmem : T ∈ (allSymbols h).reverse := List.mem_of_find?_eq_some hT
    have hTq' : T.qualified_name = S.qualified_name := by
      have hTq := List.find?_some hT
      simpa using hTq
    have hinj := List.inj_on_of_nodup_map hnd
    have hTS : T = S := hinj (by simpa using hTmem) hmem hTq'
    rw [resolve, hT, hTS]
  · intro q
    rw [resolve, List.find?_eq_none]
    constructor
    · intro hall T hT
      have := hall T (by simpa using hT)
      simpa using this
    · intro hall T hT
      have := hall T (by simpa using hT)
      simpa using this

/-- C1 witness: a concrete two-file host on which the round-trip theorem
applies. -/
theorem qualified_roundtrip_witness :
    qualifiedNamesNodup
        [("a.sysml", ⟨[⟨"Vehicle", "A::Vehicle", "a.sysml"⟩], []⟩),
         ("b.sysml", ⟨[⟨"Car", "B::Car", "b.sysml"⟩], []⟩)] ∧
      resolve
        [("a.sysml", ⟨[⟨"Vehicle", "A::Vehicle", "a.sysml"⟩], []⟩),
         ("b.sysml", ⟨[⟨"Car", "B::Car", "b.sysml"⟩], []⟩)]
        "A::Vehicle" = some ⟨"Vehicle", "A::Vehicle", "a.sysml"⟩ := by
  refine ⟨by decide, ?_⟩
  have h := qualified_roundtrip
    [("a.sysml", ⟨[⟨"Vehicle", "A::Vehicle", "a.sysml"⟩], []⟩),
     ("b.sysml", ⟨[⟨"Car", "B::Car", "b.sysml"⟩], []⟩)]
    ⟨"Vehicle", "A::Vehicle", "a.sysml"⟩ (by decide) (by decide)
  exact h.1

/-- C2: Idempotent re-index.  Re-indexing a file with identical text twice
in a row (parse_into_workspace called twice with the same text, as
open_document or apply_text_change_only followed by parse_document does)
leaves the whole server state, hence the set of all symbols, the count of
references attributed to the file, and the count of sources for any target,
unchanged between the two indexings; and after either indexing the record
held for the file is exactly the fresh extraction of the current content,
so no symbol or reference entry from a prior version survives. -/
theorem idempotent_reindex (parse : String → Path → ParseResult)
    (st : ServerState) (p : Path) (text : String) :
    parseIntoWorkspace parse (parseIntoWorkspace parse st p text) p text
        = parseIntoWorkspace parse st p text ∧
    allSymbols (parseIntoWorkspace parse (parseIntoWorkspace parse st p text) p
          text).hostFiles
        = allSymbols (parseIntoWorkspace parse st p text).hostFiles ∧
    (getReferencesInFile (parseIntoWorkspace parse (parseIntoWorkspace parse st p
          text) p text).hostFiles p).length
        = (getReferencesInFile (parseIntoWorkspace parse st p text).hostFiles
            p).length ∧
    (∀ target : String,
      (getSources (parseIntoWorkspace parse (parseIntoWorkspace parse st p text) p
          text).hostFiles target).length
        = (getSources (parseIntoWorkspace parse st p text).hostFiles
            target).length) ∧
    alLookup (parseIntoWorkspace parse st p text).hostFiles p
        = some (extractedRecord parse p text) := by
  have hidem := parseIntoWorkspace_idem parse st p text
  refine ⟨hidem, by rw [hidem], by rw [hidem], fun target => by rw [hidem], ?_⟩
  unfold parseIntoWorkspace extractedRecord
  cases hc : (parse text p).content with
  | some f => simp only [hc, setFile]; exact alLookup_alInsert p _ st.hostFiles
  | none => simp only [hc, setFile]; exact alLookup_alInsert p _ st.hostFiles

/-- C3: A file whose text fails to parse entirely is still represented in
the analysis host: parse_into_workspace installs an empty file under the
path, so the host contains an entry for it (an empty symbol set, not an
absence from the table), and resolution against that file's contribution
finds nothing rather than erroring. -/
theorem failed_parse_keeps_entry (parse : String → Path → ParseResult)
    (st : ServerState) (p : Path) (text : String)
    (hfail : (parse text p).content = none) :
    (alLookup (parseIntoWorkspace parse st p text).hostFiles p).isSome ∧
    alLookup (parseIntoWorkspace parse st p text).hostFiles p
        = some (extract p (createEmptySourceFile p)) ∧
    (extract p (createEmptySourceFile p)).symbols = [] ∧
    (extract p (createEmptySourceFile p)).references = [] ∧
    (∀ q : String, resolve [(p, extract p (createEmptySourceFile p))] q = none) := by
  have hlook : alLookup (parseIntoWorkspace parse st p text).hostFiles p
      = some (extract p (createEmptySourceFile p)) := by
    unfold parseIntoWorkspace
    simp only [hfail, setFile]
    exact alLookup_alInsert p _ st.hostFiles
  refine ⟨by rw [hlook]; rfl, hlook, rfl, rfl, fun q => rfl⟩

/-- C3 witness: a concrete parser that always fails, applied to an empty
server state. -/
theorem failed_parse_keeps_entry_witness :
    ((fun (_ : String) (_ : Path) =>
        (⟨[⟨0, 0, "expected element"⟩], none⟩ : ParseResult)) "bad !"
        "t.sysml").content = none ∧
    alLookup (parseIntoWorkspace
        (fun _ _ => (⟨[⟨0, 0, "expected element"⟩], none⟩ : ParseResult))
        ⟨[], [], []⟩ "t.sysml" "bad !").hostFiles "t.sysml"
      = some (extract "t.sysml" (createEmptySourceFile "t.sysml")) :=
  ⟨rfl,
    (failed_parse_keeps_entry
      (fun _ _ => (⟨[⟨0, 0, "expected element"⟩], none⟩ : ParseResult))
      ⟨[], [], []⟩ "t.sysml" "bad !" rfl).2.1⟩

/-- C10: apply_text_change_only installs the change text whole when the
document was never opened or its stored text is empty (ignoring the range)
and when the change carries no range; otherwise it splices the change into
the current text at the range via apply_text_edit; and in every successful
case only the document-text map changes — parse state and the analysis
host are untouched. -/
theorem apply_text_change_semantics (st : ServerState) (p : Path)
    (change : ContentChange) :
    ((alLookup st.documentTexts p = none ∨ alLookup st.documentTexts p = some "") →
      applyTextChangeOnly st p change
        = Except.ok ⟨st.hostFiles, st.parseErrors,
            alInsert p change.text st.documentTexts⟩) ∧
    (change.range = none →
      applyTextChangeOnly st p change
        = Except.ok ⟨st.hostFiles, st.parseErrors,
            alInsert p change.text st.documentTexts⟩) ∧
    (∀ range current newT, change.range = some range →
      alLookup st.documentTexts p = some current → current ≠ "" →
      applyTextEdit current range change.text = Except.ok newT →
      applyTextChangeOnly st p change
        = Except.ok ⟨st.hostFiles, st.parseErrors,
            alInsert p newT st.documentTexts⟩) ∧
    (∀ st', applyTextChangeOnly st p change = Except.ok st' →
      st'.hostFiles = st.hostFiles ∧ st'.parseErrors = st.parseErrors) := by
  refine ⟨?_, ?_, ?_, ?_⟩
  · intro hcur
    have hct : (alLookup st.documentTexts p).getD "" = "" := by
      rcases hcur with h | h <;> simp [h]
    cases hr : change.range with
    | some range => simp [applyTextChangeOnly, computeNewText, hr, hct]
    | none => simp [applyTextChangeOnly, computeNewText, hr]
  · intro hr
    simp [applyTextChangeOnly, computeNewText, hr]
  · intro range current newT hr hcur hne hedit
    have hct : (alLookup st.documentTexts p).getD "" = current := by simp [hcur]
    simp [applyTextChangeOnly, computeNewText, hr, hct, hne, hedit]
  · intro st' h
    unfold applyTextChangeOnly at h
    cases hnt : computeNewText st p change with
    | ok t =>
        rw [hnt] at h
        injection h with h
        rw [← h]
        exact ⟨rfl, rfl⟩
    | error e =>
        rw [hnt] at h
        exact absurd h (by simp)

/-- C10 witness: a concrete in-range splice on an opened document. -/
theorem apply_text_change_semantics_witness :
    applyTextEdit "part x;" ⟨⟨0, 5⟩, ⟨0, 6⟩⟩ "y" = Except.ok "part y;" ∧
    applyTextChangeOnly ⟨[], [], [("a.sysml", "part x;")]⟩ "a.sysml"
        ⟨some ⟨⟨0, 5⟩, ⟨0, 6⟩⟩, "y"⟩
      = Except.ok ⟨[], [], [("a.sysml", "part y;")]⟩ := by
  have hedit : applyTextEdit "part x;" ⟨⟨0, 5⟩, ⟨0, 6⟩⟩ "y" = Except.ok "part y;" := rfl
  constructor
  · exact hedit
  · have h := (apply_text_change_semantics ⟨[], [], [("a.sysml", "part x;")]⟩
      "a.sysml" ⟨some ⟨⟨0, 5⟩, ⟨0, 6⟩⟩, "y"⟩).2.2.1
      ⟨⟨0, 5⟩, ⟨0, 6⟩⟩ "part x;" "part y;" rfl rfl (by decide) hedit
    simpa using h

/-- C9: semantic diagnostics are gated on a clean parse.  When the stored
parse-error list for the file is non-empty, get_diagnostics returns
exactly one syster-parse ERROR diagnostic per parse error and its result
does not depend on check_file at all; check_file contributes only when the
file has zero parse errors. -/
theorem diagnostics_gated_on_clean_parse (st : ServerState) (p : Path)
    (errors : List ParseError)
    (herr : alLookup st.parseErrors p = some errors) :
    (errors ≠ [] →
      (∀ checkFile : FileId → List SemDiag,
        get_diagnostics st checkFile p = errors.map parseErrorDiagnostic) ∧
      (∀ checkFile checkFile' : FileId → List SemDiag,
        get_diagnostics st checkFile p = get_diagnostics st checkFile' p) ∧
      (∀ d ∈ get_diagnostics st (fun _ => []) p,
        d.severity = some DiagSeverity.error ∧ d.source = some "syster-parse")) ∧
    (errors = [] → ∀ fid checkFile, getFileId st.hostFiles p = some fid →
      get_diagnostics st checkFile p = (checkFile fid).map semanticDiagnostic) := by
  constructor
  · intro hne
    have hempty : (errors.map parseErrorDiagnostic).isEmpty = false := by
      simp [hne]
    have heval : ∀ checkFile : FileId → List SemDiag,
        get_diagnostics st checkFile p = errors.map parseErrorDiagnostic := by
      intro checkFile
      simp [get_diagnostics, herr, hempty]
    refine ⟨heval, fun cf cf' => by rw [heval cf, heval cf'], ?_⟩
    intro d hd
    rw [heval] at hd
    obtain ⟨e, _, he⟩ := List.mem_map.mp hd
    rw [← he]
    exact ⟨rfl, rfl⟩
  · intro hnil fid checkFile hfid
    simp [get_diagnostics, herr, hnil, hfid]

/-- C9 witness: a file with one stored parse error yields exactly the
parse diagnostic regardless of the semantic checker. -/
theorem diagnostics_gated_witness :
    get_diagnostics ⟨[], [("a.sysml", [⟨1, 2, "expected element"⟩])], []⟩
        (fun _ => [⟨0, 0, 0, 1, HirSeverity.error, none, "sem"⟩]) "a.sysml"
      = [parseErrorDiagnostic ⟨1, 2, "expected element"⟩] := by
  have h := (diagnostics_gated_on_clean_parse
      ⟨[], [("a.sysml", [⟨1, 2, "expected element"⟩])], []⟩ "a.sysml"
      [⟨1, 2, "expected element"⟩] rfl).1 (by decide)
  exact h.1 (fun _ => [⟨0, 0, 0, 1, HirSeverity.error, none, "sem"⟩])

/-- C6: starting a new edit invalidates the previous cancellation signal.
cancel_document_operations cancels the token previously stored for the
document (if any) and installs and returns a fresh, uncancelled token; and
formatting work that observes a cancelled token at either of its
cancellation checks returns none, so its stale result is discarded. -/
theorem cancellation_on_new_edit (s : CancelState) (p : Path)
    (hwf : tokensBounded s) :
    (∀ old, alLookup s.docTokens p = some old →
      isCancelled (cancelDocumentOperations s p).2 old = true) ∧
    isCancelled (cancelDocumentOperations s p).2
        (cancelDocumentOperations s p).1 = false ∧
    alLookup (cancelDocumentOperations s p).2.docTokens p
        = some (cancelDocumentOperations s p).1 ∧
    (∀ fmtResult c1 c2 text, (c1 || c2) = true →
      formatText fmtResult c1 c2 text = none) ∧
    (∀ fmtResult c1 c2 text range, (c1 || c2) = true →
      formatRangeText fmtResult c1 c2 text range = none) := by
  refine ⟨?_, ?_, ?_, ?_, ?_⟩
  · intro old hold
    simp [cancelDocumentOperations, isCancelled, hold]
  · have hbound : ∀ t, t ∈ (cancelDocumentOperations s p).2.cancelled → t < s.nextId := by
      intro t ht
      simp only [cancelDocumentOperations] at ht
      cases hold : alLookup s.docTokens p with
      | some old =>
          rw [hold] at ht
          simp only [List.mem_cons] at ht
          rcases ht with h | h
          · subst h
            have hfind : ∃ e, s.docTokens.find? (fun q => q.1 == p) = some e ∧
                e.2 = t := by
              unfold alLookup at hold
              cases hfe : s.docTokens.find? (fun q => q.1 == p) with
              | none => rw [hfe] at hold; simp at hold
              | some e =>
                  rw [hfe] at hold
                  refine ⟨e, rfl, ?_⟩
                  simpa using hold
            obtain ⟨e, he, hsnd⟩ := hfind
            have hmem := List.mem_of_find?_eq_some he
            rw [← hsnd]
            exact hwf.2 e hmem
          · exact hwf.1 t h
      | none =>
          rw [hold] at ht
          exact hwf.1 t ht
    simp only [cancelDocumentOperations, isCancelled]
    rw [Bool.eq_false_iff]
    intro hcon
    have hmem : s.nextId ∈ (cancelDocumentOperations s p).2.cancelled := by
      simpa [cancelDocumentOperations, List.contains] using hcon
    exact absurd (hbound s.nextId hmem) (by omega)
  · simp only [cancelDocumentOperations]
    exact alLookup_alInsert p s.nextId s.docTokens
  · intro fmtResult c1 c2 text hc
    cases c1 with
    | true => simp [formatText]
    | false =>
        have hc2 : c2 = true := by simpa using hc
        cases fmtResult <;> simp [formatText, hc2]
  · intro fmtResult c1 c2 text range hc
    cases c1 with
    | true => simp [formatRangeText]
    | false =>
        have hc2 : c2 = true := by simpa using hc
        unfold formatRangeText
        cases positionToByteOffset text range.start with
        | error e => simp
        | ok sb =>
          cases positionToByteOffset text range.stop with
          | error e => simp
          | ok eb =>
            cases fmtResult <;> simp [hc2]

/-- C6 witness: a concrete document with an in-flight token. -/
theorem cancellation_on_new_edit_witness :
    tokensBounded ⟨3, [0], [("a.sysml", 2)]⟩ ∧
    isCancelled (cancelDocumentOperations ⟨3, [0], [("a.sysml", 2)]⟩ "a.sysml").2
        2 = true ∧
    isCancelled (cancelDocumentOperations ⟨3, [0], [("a.sysml", 2)]⟩ "a.sysml").2
        (cancelDocumentOperations ⟨3, [0], [("a.sysml", 2)]⟩ "a.sysml").1 = false ∧
    formatText (some "part def A;") false true "part  def A;" = none := by
  have h := cancellation_on_new_edit ⟨3, [0], [("a.sysml", 2)]⟩ "a.sysml"
    (by constructor <;> simp)
  exact ⟨⟨by simp, by simp⟩, h.1 2 rfl, h.2.1,
    h.2.2.2.1 (some "part def A;") false true "part  def A;" rfl⟩

/-- C7: ambiguity collapses to first-match.  get_definition returns at most
one Location, built from the first target of the engine's goto_definition
result in the result's order, and (provided every returned target's file
id still resolves to a path, which holds of any coherent snapshot) it
returns none exactly when the result has no targets. -/
theorem goto_definition_first_match (a : Analysis) (p : Path) (pos : Pos)
    (fid : FileId) (hfid : a.fileId p = some fid)
    (hwf : ∀ t ∈ (a.gotoDef fid pos.line pos.character).targets,
      (a.filePath t.file).isSome) :
    (get_definition a p pos = none ↔
      (a.gotoDef fid pos.line pos.character).targets = []) ∧
    (∀ t ts, (a.gotoDef fid pos.line pos.character).targets = t :: ts →
      ∃ dp, a.filePath t.file = some dp ∧
        get_definition a p pos = some (mkLocation dp t)) := by
  constructor
  · cases hts : (a.gotoDef fid pos.line pos.character).targets with
    | nil => simp [get_definition, hfid, hts]
    | cons t ts =>
        have hsome := hwf t (by rw [hts]; exact List.mem_cons_self t ts)
        obtain ⟨dp, hdp⟩ := Option.isSome_iff_exists.mp hsome
        simp [get_definition, hfid, hts, hdp]
  · intro t ts hts
    have hsome := hwf t (by rw [hts]; exact List.mem_cons_self t ts)
    obtain ⟨dp, hdp⟩ := Option.isSome_iff_exists.mp hsome
    exact ⟨dp, hdp, by simp [get_definition, hfid, hts, hdp]⟩

/-- C7 witness: a snapshot with two targets, on which get_definition is
none exactly when the target list is empty (here it is not). -/
theorem goto_definition_first_match_witness :
    c7Analysis.fileId "a.sysml" = some 0 ∧
    ((get_definition c7Analysis "a.sysml" ⟨5, 5⟩ = none) ↔
      (c7Analysis.gotoDef 0 5 5).targets = []) :=
  ⟨rfl, (goto_definition_first_match c7Analysis "a.sysml" ⟨5, 5⟩ 0 rfl
    (fun _ _ => rfl)).1⟩

/-- C4 counterexample: the claim includes find_symbol_at_position among
the operations that surface an unresolved name as an empty result, but
when the position lies on an indexed reference that every resolver
operation fails to resolve, find_symbol_at_position returns the raw
target text with a default range, not none (position.rs lines 79-81). -/
theorem unresolved_fallback_counterexample :
    c4Engine.resolveInScope "Foo" 0 = none ∧
    c4Engine.resolveGlobal "Foo" = none ∧
    find_symbol_at_position c4Engine "t.sysml" ⟨0, 0⟩
      = some ("Foo", makeWordRange ⟨0, 0⟩) :=
  ⟨rfl, rfl, rfl⟩

/-- C4 (amended): get_definition, get_references and get_hover surface an
unresolved name as their empty value (none, an empty location list, none)
and never throw; find_symbol_at_position returns none when the position
lies on no indexed reference and no symbol span, and when the position
lies on an indexed reference that the resolver cannot resolve it returns
the raw reference text with a default word range (still without
throwing).  All four are read-only: they are functions of the snapshot
alone. -/
theorem unresolved_surfaced_without_throwing (a : Analysis) (e : Engine)
    (p : Path) (pos : Pos) (fid : FileId) (includeDeclaration : Bool) :
    (a.fileId p = some fid →
      (a.gotoDef fid pos.line pos.character).targets = [] →
      get_definition a p pos = none) ∧
    (a.fileId p = some fid →
      (a.findRefs fid pos.line pos.character includeDeclaration).references = [] →
      get_references a p pos includeDeclaration = some []) ∧
    (a.fileId p = some fid → a.hoverAt fid pos.line pos.character = none →
      get_hover a p pos = none) ∧
    (e.refAtPos p pos = none →
      e.symbols.find? (fun sym => sym.source_file == some p &&
          (sym.span.map (fun s => s.containsPos pos)).getD false) = none →
      find_symbol_at_position e p pos = none) ∧
    (∀ targetName sid, e.refAtPos p pos = some (targetName, ⟨some sid, none⟩) →
      e.resolveInScope targetName sid = none →
      find_symbol_at_position e p pos = some (targetName, makeWordRange pos)) := by
  refine ⟨?_, ?_, ?_, ?_, ?_⟩
  · intro h1 h2
    simp [get_definition, h1, h2]
  · intro h1 h2
    simp [get_references, h1, h2]
  · intro h1 h2
    simp [get_hover, h1, h2]
  · intro h1 h2
    simp [find_symbol_at_position, h1, h2]
  · intro targetName sid h1 h2
    simp [find_symbol_at_position, h1, h2]

/-- C4 witness: the empty snapshot and engine, plus the fallback case. -/
theorem unresolved_surfaced_without_throwing_witness :
    get_definition emptyAnalysis "a.sysml" ⟨0, 0⟩ = none ∧
    get_references emptyAnalysis "a.sysml" ⟨0, 0⟩ true = some [] ∧
    get_hover emptyAnalysis "a.sysml" ⟨0, 0⟩ = none ∧
    find_symbol_at_position emptyEngine "a.sysml" ⟨0, 0⟩ = none ∧
    find_symbol_at_position c4Engine "t.sysml" ⟨0, 0⟩
      = some ("Foo", makeWordRange ⟨0, 0⟩) := by
  have h := unresolved_surfaced_without_throwing emptyAnalysis emptyEngine
    "a.sysml" ⟨0, 0⟩ 0 true
  have h2 := unresolved_surfaced_without_throwing emptyAnalysis c4Engine
    "t.sysml" ⟨0, 0⟩ 0 true
  exact ⟨h.1 rfl rfl, h.2.1 rfl rfl, h.2.2.1 rfl rfl, h.2.2.2.1 rfl rfl,
    h2.2.2.2.2 "Foo" 0 rfl rfl⟩

/-- C5: resolution is structurally bounded and cycle-guarded.  The
visited-set guard makes a revisited base a no-op (one worklist step with
nothing pushed), and on the contrived cyclic specialization X :> Y; Y :> X
resolve_member terminates and returns none rather than recursing forever.
Every embedded resolution function (resolveMemberAux, chainWalk,
find_symbol_at_position) is a total function, so each query terminates on
every input. -/
theorem cyclic_resolution_terminates :
    (∀ (table : List RSym) (member : String) (fuel : Nat) (base : RSym)
        (stack : List RSym) (visited : List String),
      visited.contains base.qualified_name = true →
      resolveMemberAux table member (fuel + 1) (base :: stack) visited
        = resolveMemberAux table member fuel stack visited) ∧
    resolve_member cyclicTable "m" ⟨"X", false, none, ["Y"]⟩ = none := by
  constructor
  · intro table member fuel base stack visited hvis
    have hmem : base.qualified_name ∈ visited := by simpa using hvis
    simp [resolveMemberAux, hmem]
  · decide

/-- C5 witness: the guard step applied at a concrete revisited base. -/
theorem cyclic_resolution_terminates_witness :
    (["X"].contains "X" = true) ∧
    resolveMemberAux cyclicTable "m" 1 [⟨"X", false, none, ["Y"]⟩] ["X"]
      = resolveMemberAux cyclicTable "m" 0 [] ["X"] :=
  ⟨by decide, cyclic_resolution_terminates.1 cyclicTable "m" 0
    ⟨"X", false, none, ["Y"]⟩ [] ["X"] (by decide)⟩

/-- C8: determinism on an unchanged table.  The Referenced-by list built
by hover is the collected references sorted by (file, line, col) — it is
Pairwise-ordered under the lexicographic key and a permutation of the
collection — and every read-only hover query is a function of the parts of
the snapshot it reads: equal symbol tables give equal sorted lists, and
equal symbol tables plus equal file-path maps give identical hover
content, so repeated identical requests on an unchanged table return
identical results. -/
theorem hover_references_sorted_deterministic (a : Analysis) (q : String) :
    List.Pairwise (fun x y => refKeyLe x y = true) (sortedRefs a q) ∧
    (sortedRefs a q).Perm (collectRefs a q) ∧
    (∀ a' : Analysis, a.symbols = a'.symbols →
      sortedRefs a q = sortedRefs a' q) ∧
    (∀ a' : Analysis, a.symbols = a'.symbols →
      (∀ f, a.filePath f = a'.filePath f) →
      ∀ content, addReferencesSection a content q
        = addReferencesSection a' content q) := by
  have htrans : ∀ x y z : Nat × Nat × Nat,
      refKeyLe x y → refKeyLe y z → refKeyLe x z := by
    intro x y z hxy hyz
    obtain ⟨x1, x2, x3⟩ := x
    obtain ⟨y1, y2, y3⟩ := y
    obtain ⟨z1, z2, z3⟩ := z
    simp only [refKeyLe, Bool.or_eq_true, Bool.and_eq_true, decide_eq_true_eq,
      beq_iff_eq] at hxy hyz ⊢
    omega
  have htotal : ∀ x y : Nat × Nat × Nat, refKeyLe x y || refKeyLe y x := by
    intro x y
    obtain ⟨x1, x2, x3⟩ := x
    obtain ⟨y1, y2, y3⟩ := y
    simp only [refKeyLe, Bool.or_eq_true, Bool.and_eq_true, decide_eq_true_eq,
      beq_iff_eq]
    omega
  refine ⟨?_, List.mergeSort_perm _ _, ?_, ?_⟩
  · exact List.sorted_mergeSort htrans htotal (collectRefs a q)
  · intro a' hsym
    unfold sortedRefs collectRefs
    rw [hsym]
  · intro a' hsym hfp content
    have hcoll : sortedRefs a q = sortedRefs a' q := by
      unfold sortedRefs collectRefs
      rw [hsym]
    have hfold : (fun acc (e : FileId × Nat × Nat) => acc ++ refLine a e)
        = (fun acc e => acc ++ refLine a' e) := by
      funext acc e
      unfold refLine
      rw [hfp]
    unfold addReferencesSection
    rw [hcoll, hfold]

end Syster
